import Mathlib

/-!
Shallow embedding of the SPX Iron Fly ladder strategy engine
(`src/SPX_9IF_0DTE_v2.py` and `src/SPX_9IF_0DTE_not_used.py`).

Money and strike values are modelled as exact rationals.  Python `Decimal`
quantization with `ROUND_HALF_UP` (ties away from zero) is modelled by
`rhalfUp`; the `round_to_nickel` and cent-rounding helpers mirror the
source helpers of the same purpose.
-/

namespace SpxBot

/-- Round-half-up (ties away from zero) to an integer, as performed by
Python `Decimal.quantize(Decimal("1"), rounding=ROUND_HALF_UP)`. -/
def rhalfUp (x : ℚ) : ℤ :=
  if 0 ≤ x then ⌊x + 1/2⌋ else ⌈x - 1/2⌉

/-- `round_to_nickel` from the source: quantize `v / 0.05` to an integer
with half-up rounding and rescale. -/
def round_to_nickel (v : ℚ) : ℚ :=
  (rhalfUp (20 * v) : ℚ) / 20

/-- Cent rounding used by `compute_strategy_status`:
`Decimal(pnl).quantize(Decimal("0.01"), rounding=ROUND_HALF_UP)`. -/
def round2 (v : ℚ) : ℚ :=
  (rhalfUp (100 * v) : ℚ) / 100

/-- `x` is a whole multiple of one cent. -/
def isCent (x : ℚ) : Prop := (x * 100).den = 1

/-- `x` is a whole multiple of a nickel (0.05). -/
def isNickel (x : ℚ) : Prop := (x * 20).den = 1

instance (x : ℚ) : Decidable (isCent x) := by unfold isCent; infer_instance

instance (x : ℚ) : Decidable (isNickel x) := by unfold isNickel; infer_instance

theorem rhalfUp_intCast (z : ℤ) : rhalfUp (z : ℚ) = z := by
  unfold rhalfUp
  rcases le_or_lt 0 (z : ℚ) with h | h
  · rw [if_pos h, Int.floor_eq_iff]
    constructor
    · linarith
    · linarith
  · rw [if_neg (not_le.mpr h), Int.ceil_eq_iff]
    constructor
    · linarith
    · linarith

theorem den_one_iff (q : ℚ) : q.den = 1 ↔ ∃ z : ℤ, q = (z : ℚ) := by
  constructor
  · intro h
    exact ⟨q.num, ((Rat.den_eq_one_iff q).mp h).symm⟩
  · rintro ⟨z, rfl⟩
    exact Rat.den_intCast z

theorem isNickel_round_to_nickel (v : ℚ) : isNickel (round_to_nickel v) := by
  unfold isNickel round_to_nickel
  have h : (rhalfUp (20 * v) : ℚ) / 20 * 20 = (rhalfUp (20 * v) : ℚ) := by
    field_simp
  rw [h]
  exact Rat.den_intCast _

theorem round_to_nickel_of_isNickel {x : ℚ} (h : isNickel x) :
    round_to_nickel x = x := by
  obtain ⟨z, hz⟩ := (den_one_iff _).mp h
  have hx : x = (z : ℚ) / 20 := by
    field_simp at hz ⊢
    linarith [hz]
  subst hx
  unfold round_to_nickel
  rw [show (20 : ℚ) * ((z : ℚ) / 20) = (z : ℚ) by field_simp]
  rw [rhalfUp_intCast]

theorem isCent_of_isNickel {x : ℚ} (h : isNickel x) : isCent x := by
  obtain ⟨z, hz⟩ := (den_one_iff _).mp h
  unfold isCent
  have : x * 100 = ((5 * z : ℤ) : ℚ) := by push_cast; linarith [hz]
  rw [this]
  exact Rat.den_intCast _

theorem isCent_add {a b : ℚ} (ha : isCent a) (hb : isCent b) : isCent (a + b) := by
  obtain ⟨y, hy⟩ := (den_one_iff _).mp ha
  obtain ⟨z, hz⟩ := (den_one_iff _).mp hb
  unfold isCent
  have : (a + b) * 100 = ((y + z : ℤ) : ℚ) := by push_cast; linarith [hy, hz]
  rw [this]
  exact Rat.den_intCast _

theorem isCent_sub {a b : ℚ} (ha : isCent a) (hb : isCent b) : isCent (a - b) := by
  obtain ⟨y, hy⟩ := (den_one_iff _).mp ha
  obtain ⟨z, hz⟩ := (den_one_iff _).mp hb
  unfold isCent
  have : (a - b) * 100 = ((y - z : ℤ) : ℚ) := by push_cast; linarith [hy, hz]
  rw [this]
  exact Rat.den_intCast _

theorem round2_of_isCent {x : ℚ} (h : isCent x) : round2 x = x := by
  obtain ⟨z, hz⟩ := (den_one_iff _).mp h
  have hx : x = (z : ℚ) / 100 := by
    field_simp at hz ⊢
    linarith [hz]
  subst hx
  unfold round2
  rw [show (100 : ℚ) * ((z : ℚ) / 100) = (z : ℚ) by field_simp]
  rw [rhalfUp_intCast]

theorem isCent_round2 (v : ℚ) : isCent (round2 v) := by
  unfold isCent round2
  have h : (rhalfUp (100 * v) : ℚ) / 100 * 100 = (rhalfUp (100 * v) : ℚ) := by
    field_simp
  rw [h]
  exact Rat.den_intCast _

/-! ### Data model

`IronFly` mirrors the dataclass of the same name: body strike, wing width,
quantity, entry credit and the `open` lifecycle flag (named `is_open` here
because `open` is a Lean keyword).  The four leg option handles are not
needed for the verified properties beyond their mids, which are passed in
explicitly, so they are not carried in the structure. -/

structure IronFly where
  body : ℚ
  width : ℤ
  qty : ℤ
  entry_credit : ℚ
  is_open : Bool
deriving DecidableEq, Repr

/-- `StrategyState` of `SPX_9IF_0DTE_v2.py` (the `_not_used` variant lacks
the `expiry` field; it is simply ignored there).  Python dicts are modelled
as insertion-ordered association lists. -/
structure StrategyState where
  entered_today : Bool
  expiry : Option String
  active_flies : List (ℚ × IronFly)
  closed_flies : List (ℚ × IronFly)
  per_if_pnl : List (ℚ × ℚ)
  total_pnl : ℚ
deriving DecidableEq, Repr

/-- The fresh state built by `StrategyState()` in `__init__`. -/
def initialState : StrategyState :=
  { entered_today := false
    expiry := none
    active_flies := []
    closed_flies := []
    per_if_pnl := []
    total_pnl := 0 }

/-! Association-list operations mirroring Python dict semantics:
lookup, removal (`pop`) and upsert (`d[k] = v`, which overwrites in place
for an existing key and appends for a new key). -/

def alLookup (k : ℚ) : List (ℚ × α) → Option α
  | [] => none
  | (k', v) :: rest => if k = k' then some v else alLookup k rest

def alErase (k : ℚ) : List (ℚ × α) → List (ℚ × α)
  | [] => []
  | (k', v) :: rest => if k = k' then rest else (k', v) :: alErase k rest

def alUpsert (k : ℚ) (v : α) : List (ℚ × α) → List (ℚ × α)
  | [] => [(k, v)]
  | (k', v') :: rest =>
      if k = k' then (k, v) :: rest else (k', v') :: alUpsert k v rest

def alKeys (l : List (ℚ × α)) : List ℚ := l.map Prod.fst

/-! ### PnL engine (`compute_strategy_status`)

The per-leg mids obtained by `stream_and_mark` for one fly. -/

structure LegMids where
  cs : Option ℚ
  cl : Option ℚ
  ps : Option ℚ
  pl : Option ℚ
deriving DecidableEq, Repr

/-- The per-fly mid credit computed in `stream_and_mark`: skipped unless
all four leg mids are present, else `(cs + ps) - (cl + pl)` rounded to a
nickel. -/
def fly_mid_credit (m : LegMids) : Option ℚ :=
  match m.cs, m.cl, m.ps, m.pl with
  | some cs, some cl, some ps, some pl =>
      some (round_to_nickel ((cs + ps) - (cl + pl)))
  | _, _, _, _ => none

/-- Keyed filter-map over an association list: the Python pattern
`for k, x in d.items(): ... result[k] = v or skip`. -/
def alMapFilter (g : ℚ → α → Option β) (l : List (ℚ × α)) : List (ℚ × β) :=
  l.filterMap fun x => (g x.1 x.2).map fun v => (x.1, v)

/-- `fly_mids` of `stream_and_mark`: one entry per active fly whose four
mids are all present this cycle. -/
def stream_fly_mids (legmids : ℚ → LegMids) (active : List (ℚ × IronFly)) :
    List (ℚ × ℚ) :=
  alMapFilter (fun b _ => fly_mid_credit (legmids b)) active

/-- The per-IF P&L mapping rebuilt by `compute_strategy_status`: open flies
whose mid is present get `round2 (entry_credit - current_mid)`; all other
flies are skipped. -/
def compute_per_if_pnl (active : List (ℚ × IronFly)) (fly_mids : ℚ → Option ℚ) :
    List (ℚ × ℚ) :=
  alMapFilter
    (fun b fly =>
      if fly.is_open then
        (fly_mids b).map fun m => round2 (fly.entry_credit - m)
      else none)
    active

/-- Total strategy P&L: the running sum of the per-IF P&Ls, rounded to the
cent at the end (as the source does). -/
def compute_total (per : List (ℚ × ℚ)) : ℚ :=
  round2 ((per.map Prod.snd).sum)

/-- `compute_strategy_status`: replaces `per_if_pnl` wholesale and sets
`total_pnl`. -/
def compute_strategy_status (st : StrategyState) (fly_mids : ℚ → Option ℚ) :
    StrategyState :=
  let per := compute_per_if_pnl st.active_flies fly_mids
  { st with per_if_pnl := per, total_pnl := compute_total per }

/-! ### Configuration (the fields of `Config` the core logic consumes) -/

structure Config where
  n_above : ℕ
  n_below : ℕ
  step : ℚ
  width : ℤ
  per_if_stop : ℚ
  portfolio_stop : ℚ
deriving DecidableEq, Repr

/-- The defaults of the Python `Config` dataclass. -/
def defaultConfig : Config :=
  { n_above := 4, n_below := 4, step := 5, width := 60
    per_if_stop := 500, portfolio_stop := 4000 }

/-! ### Exit rules (`evaluate_exit_rules`, identical in both engine files) -/

/-- `evaluate_exit_rules`: if the portfolio loss `-total_pnl` reaches
`portfolio_stop`, return all active bodies with the portfolio flag; else
return the per-IF stopped bodies. -/
def evaluate_exit_rules (cfg : Config) (st : StrategyState) :
    List ℚ × Bool :=
  if cfg.portfolio_stop ≤ -st.total_pnl then
    (alKeys st.active_flies, true)
  else
    ((st.per_if_pnl.filter fun p => cfg.per_if_stop ≤ -p.2).map Prod.fst, false)

/-! ### Lowest and highest elements of a list

`roll_replacement` takes `sorted(keys)[0]` and `sorted(keys)[-1]`, i.e. the
minimum and maximum of the (nonempty) key list; we model them directly. -/

def listMin : List ℚ → Option ℚ
  | [] => none
  | x :: xs => some (xs.foldl min x)

def listMax : List ℚ → Option ℚ
  | [] => none
  | x :: xs => some (xs.foldl max x)

theorem foldl_min_le_init (a : ℚ) (l : List ℚ) : l.foldl min a ≤ a := by
  induction l generalizing a with
  | nil => exact le_refl a
  | cons x xs ih => exact le_trans (ih (min a x)) (min_le_left a x)

theorem foldl_min_le_mem (a : ℚ) (l : List ℚ) :
    ∀ x ∈ l, l.foldl min a ≤ x := by
  induction l generalizing a with
  | nil => intro x hx; cases hx
  | cons y ys ih =>
      intro x hx
      rcases List.mem_cons.mp hx with rfl | hx'
      · exact le_trans (foldl_min_le_init (min a x) ys) (min_le_right a x)
      · exact ih (min a y) x hx'

theorem foldl_min_mem (a : ℚ) (l : List ℚ) :
    l.foldl min a = a ∨ l.foldl min a ∈ l := by
  induction l generalizing a with
  | nil => exact Or.inl rfl
  | cons y ys ih =>
      rw [List.foldl_cons]
      rcases ih (min a y) with h | h
      · rcases min_cases a y with ⟨hm, _⟩ | ⟨hm, _⟩
        · exact Or.inl (by rw [h, hm])
        · refine Or.inr ?_
          rw [h, hm]
          exact List.mem_cons_self y ys
      · exact Or.inr (List.mem_cons_of_mem y h)

theorem foldl_max_init_le (a : ℚ) (l : List ℚ) : a ≤ l.foldl max a := by
  induction l generalizing a with
  | nil => exact le_refl a
  | cons x xs ih => exact le_trans (le_max_left a x) (ih (max a x))

theorem foldl_max_mem_le (a : ℚ) (l : List ℚ) :
    ∀ x ∈ l, x ≤ l.foldl max a := by
  induction l generalizing a with
  | nil => intro x hx; cases hx
  | cons y ys ih =>
      intro x hx
      rcases List.mem_cons.mp hx with rfl | hx'
      · exact le_trans (le_max_right a x) (foldl_max_init_le (max a x) ys)
      · exact ih (max a y) x hx'

theorem foldl_max_mem (a : ℚ) (l : List ℚ) :
    l.foldl max a = a ∨ l.foldl max a ∈ l := by
  induction l generalizing a with
  | nil => exact Or.inl rfl
  | cons y ys ih =>
      rw [List.foldl_cons]
      rcases ih (max a y) with h | h
      · rcases max_cases a y with ⟨hm, _⟩ | ⟨hm, _⟩
        · exact Or.inl (by rw [h, hm])
        · refine Or.inr ?_
          rw [h, hm]
          exact List.mem_cons_self y ys
      · exact Or.inr (List.mem_cons_of_mem y h)

theorem listMin_le {l : List ℚ} {m : ℚ} (h : listMin l = some m) :
    ∀ x ∈ l, m ≤ x := by
  cases l with
  | nil => cases h
  | cons y ys =>
      intro x hx
      have hm : ys.foldl min y = m := by simpa [listMin] using h
      rcases List.mem_cons.mp hx with rfl | hx'
      · exact hm ▸ foldl_min_le_init x ys
      · exact hm ▸ foldl_min_le_mem y ys x hx'

theorem listMin_mem {l : List ℚ} {m : ℚ} (h : listMin l = some m) : m ∈ l := by
  cases l with
  | nil => cases h
  | cons y ys =>
      have hm : ys.foldl min y = m := by simpa [listMin] using h
      rcases foldl_min_mem y ys with h' | h'
      · exact (hm ▸ h') ▸ List.mem_cons_self y ys
      · exact List.mem_cons_of_mem y (hm ▸ h')

theorem listMax_le {l : List ℚ} {m : ℚ} (h : listMax l = some m) :
    ∀ x ∈ l, x ≤ m := by
  cases l with
  | nil => cases h
  | cons y ys =>
      intro x hx
      have hm : ys.foldl max y = m := by simpa [listMax] using h
      rcases List.mem_cons.mp hx with rfl | hx'
      · exact hm ▸ foldl_max_init_le x ys
      · exact hm ▸ foldl_max_mem_le y ys x hx'

theorem listMax_mem {l : List ℚ} {m : ℚ} (h : listMax l = some m) : m ∈ l := by
  cases l with
  | nil => cases h
  | cons y ys =>
      have hm : ys.foldl max y = m := by simpa [listMax] using h
      rcases foldl_max_mem y ys with h' | h'
      · exact (hm ▸ h') ▸ List.mem_cons_self y ys
      · exact List.mem_cons_of_mem y (hm ▸ h')

/-! ### Order placement oracle

`open_if` / `close_if` both stream fresh quotes and submit an order; their
success depends on market data and the gateway.  Both outcomes, and the
credit recorded by a successful `open_if`, are abstracted into an oracle
consulted by the cycle functions.  `time_ok` abstracts `is_time_to_enter`
and `atm` the derived ATM body. -/

structure CycleOracle where
  time_ok : Bool
  atm : ℚ
  legmids : ℚ → LegMids
  open_ok : ℚ → Bool
  open_credit : ℚ → ℚ
  close_ok : ℚ → Bool

/-! ### Roll logic (`SPX_9IF_0DTE_not_used.py` only; the v2 engine closes
stopped positions without rolling) -/

/-- The replacement body computed by `roll_replacement` from the bodies
that remain active after the stopped fly was popped: `none` when no fly
remains (early return), else one step beyond an extremity, chosen by the
`hit == lowest` / `hit == highest` / distance-comparison branches. -/
def roll_target (step : ℚ) (bodies : List ℚ) (hit : ℚ) : Option ℚ :=
  match listMin bodies, listMax bodies with
  | some lowest, some highest =>
      if hit = lowest then some (highest + step)
      else if hit = highest then some (lowest - step)
      else if |hit - lowest| < |hit - highest| then some (highest + step)
      else some (lowest - step)
  | _, _ => none

/-- `roll_replacement`: resolve and open a fly at the target body; on
order success insert it into the active map.  A freshly constructed
`IronFly` has `qty = 1` and the credit recorded by `open_if`. -/
def roll_replacement (cfg : Config) (o : CycleOracle) (st : StrategyState)
    (hit : ℚ) : StrategyState :=
  match roll_target cfg.step (alKeys st.active_flies) hit with
  | none => st
  | some nb =>
      if o.open_ok nb then
        let new_fly : IronFly := ⟨nb, cfg.width, 1, o.open_credit nb, true⟩
        { st with active_flies := alUpsert nb new_fly st.active_flies }
      else st

/-- Loop body of the per-IF close branch of `run` in the `_not_used`
engine: skip missing or already-closed flies; on close success move the
fly to `closed_flies`, pop it from `active_flies` and roll. -/
def per_if_close_one (cfg : Config) (o : CycleOracle) (st : StrategyState)
    (body : ℚ) : StrategyState :=
  match alLookup body st.active_flies with
  | none => st
  | some fly =>
      if fly.is_open then
        if o.close_ok body then
          let st1 := { st with
            closed_flies := alUpsert body { fly with is_open := false }
              st.closed_flies
            active_flies := alErase body st.active_flies }
          roll_replacement cfg o st1 body
        else st
      else st

/-- Portfolio-stop branch of `run` in the `_not_used` engine: every active
fly is moved to `closed_flies` and popped, whether or not its closing
order succeeded (the `close_if` result is ignored there). -/
def close_all_portfolio (o : CycleOracle) (st : StrategyState) :
    StrategyState :=
  st.active_flies.foldl
    (fun acc bf =>
      let fly' := if o.close_ok bf.1 then { bf.2 with is_open := false }
                  else bf.2
      { acc with
        closed_flies := alUpsert bf.1 fly' acc.closed_flies
        active_flies := alErase bf.1 acc.active_flies })
    st

/-- The exit section of one `run` cycle of the `_not_used` engine. -/
def run_exit_phase (cfg : Config) (o : CycleOracle) (st : StrategyState) :
    StrategyState :=
  let r := evaluate_exit_rules cfg st
  if r.2 && !st.active_flies.isEmpty then close_all_portfolio o st
  else if !r.1.isEmpty then r.1.foldl (per_if_close_one cfg o) st
  else st

/-! ### The v2 engine (`SPX_9IF_0DTE_v2.py`): exit without rolling -/

/-- Portfolio-stop branch of `run` in the v2 engine: a fly is moved to
`closed_flies` and popped only when its closing order succeeded. -/
def close_all_portfolio_v2 (o : CycleOracle) (st : StrategyState) :
    StrategyState :=
  st.active_flies.foldl
    (fun acc bf =>
      if o.close_ok bf.1 then
        { acc with
          closed_flies := alUpsert bf.1 { bf.2 with is_open := false }
            acc.closed_flies
          active_flies := alErase bf.1 acc.active_flies }
      else acc)
    st

/-- Loop body of the per-IF close branch of `run` in the v2 engine:
close and pop on success, with no roll. -/
def per_if_close_one_v2 (o : CycleOracle) (st : StrategyState) (body : ℚ) :
    StrategyState :=
  match alLookup body st.active_flies with
  | none => st
  | some fly =>
      if fly.is_open then
        if o.close_ok body then
          { st with
            closed_flies := alUpsert body { fly with is_open := false }
              st.closed_flies
            active_flies := alErase body st.active_flies }
        else st
      else st

/-- The exit section of one `run` cycle of the v2 engine. -/
def run_exit_phase_v2 (cfg : Config) (o : CycleOracle) (st : StrategyState) :
    StrategyState :=
  let r := evaluate_exit_rules cfg st
  if r.2 && !st.active_flies.isEmpty then close_all_portfolio_v2 o st
  else if !r.1.isEmpty then r.1.foldl (per_if_close_one_v2 o) st
  else st

/-! ### Ladder construction (`construct_ladder`, identical in both files) -/

/-- The body strikes: the ATM body, `n_below` bodies one step apart below,
`n_above` above, then `sorted(bodies)`. -/
def ladder_bodies (atm : ℚ) (n_below n_above : ℕ) (step : ℚ) : List ℚ :=
  ([atm] ++ (List.range n_below).map (fun i : ℕ => atm - ((i : ℚ) + 1) * step)
    ++ (List.range n_above).map (fun i : ℕ => atm + ((i : ℚ) + 1) * step)).mergeSort

/-- `construct_ladder`: one pending `IronFly` per body, `qty = 1`, default
credit 0, legs resolved from the chain (leg handles abstracted away). -/
def construct_ladder (cfg : Config) (atm : ℚ) : List IronFly :=
  (ladder_bodies atm cfg.n_below cfg.n_above cfg.step).map
    fun b => ⟨b, cfg.width, 1, 0, true⟩

/-- The entry section of one `run` cycle of the v2 engine: runs only when
the entry window is met, the session has not entered yet and no fly is
active; opens each ladder fly whose order succeeds and sets
`entered_today` iff at least one opened. -/
def run_entry_v2 (cfg : Config) (o : CycleOracle) (st : StrategyState) :
    StrategyState :=
  if (o.time_ok && !st.entered_today) && st.active_flies.isEmpty then
    let ladder := construct_ladder cfg o.atm
    let st' := ladder.foldl
      (fun acc fly =>
        if o.open_ok fly.body then
          let fly' := { fly with entry_credit := o.open_credit fly.body }
          { acc with active_flies := alUpsert fly.body fly' acc.active_flies }
        else acc)
      st
    { st' with entered_today :=
        !(ladder.filter fun fly => o.open_ok fly.body).isEmpty }
  else st

/-- The composition performed by `stream_and_mark`: build the per-fly mid
map from the streamed leg mids, then recompute the P&L state from it. -/
def mark_to_market (legmids : ℚ → LegMids) (st : StrategyState) :
    StrategyState :=
  compute_strategy_status st
    (fun b => alLookup b (stream_fly_mids legmids st.active_flies))

/-- Mark-to-market section of one cycle (`stream_and_mark`): early return
when no fly is active, else recompute `per_if_pnl` and `total_pnl` from
the streamed per-fly mid credits. -/
def run_mark (o : CycleOracle) (st : StrategyState) : StrategyState :=
  if st.active_flies.isEmpty then st
  else mark_to_market o.legmids st

/-- One full cycle of the v2 `run` loop: entry, mark-to-market, exits. -/
def run_cycle_v2 (cfg : Config) (o : CycleOracle) (st : StrategyState) :
    StrategyState :=
  run_exit_phase_v2 cfg o (run_mark o (run_entry_v2 cfg o st))

/-! ### State persistence (`save_state` / `load_state` /
`rehydrate_from_state` of the v2 engine) -/

/-- Round-half-even to an integer: the default rounding of Python
`Decimal.quantize` when no rounding mode is passed, used by `save_state`
for `entry_credit` and `total_pnl`. -/
def rhalfEven (x : ℚ) : ℤ :=
  if Int.fract x < 1/2 then ⌊x⌋
  else if 1/2 < Int.fract x then ⌊x⌋ + 1
  else if Even ⌊x⌋ then ⌊x⌋ else ⌊x⌋ + 1

/-- `Decimal(v).quantize(Decimal("0.01"))`: cent quantization with the
default (half-even) rounding. -/
def quantize2 (v : ℚ) : ℚ :=
  (rhalfEven (100 * v) : ℚ) / 100

theorem rhalfEven_intCast (z : ℤ) : rhalfEven (z : ℚ) = z := by
  unfold rhalfEven
  rw [Int.fract_intCast]
  norm_num

theorem quantize2_of_isCent {x : ℚ} (h : isCent x) : quantize2 x = x := by
  obtain ⟨z, hz⟩ := (den_one_iff _).mp h
  have hx : x = (z : ℚ) / 100 := by
    field_simp at hz ⊢
    linarith [hz]
  subst hx
  unfold quantize2
  rw [show (100 : ℚ) * ((z : ℚ) / 100) = (z : ℚ) by field_simp]
  rw [rhalfEven_intCast]

/-- One serialized active fly: `save_state` writes only body, width,
quantity and entry credit (quantized to the cent). -/
structure SavedFly where
  body : ℚ
  width : ℤ
  qty : ℤ
  entry_credit : ℚ
deriving DecidableEq, Repr

/-- The `state.json` payload of the v2 engine (timestamp omitted). -/
structure SavedState where
  expiry : Option String
  entered_today : Bool
  active_flies : List SavedFly
  closed_flies : List ℚ
  total_pnl : ℚ
deriving DecidableEq, Repr

/-- `save_state`: serializes the open active flies by
body/width/qty/entry-credit, the sorted closed bodies and the quantized
total P&L. -/
def save_state (st : StrategyState) : SavedState :=
  { expiry := st.expiry
    entered_today := st.entered_today
    active_flies := st.active_flies.filterMap fun bf =>
      if bf.2.is_open then
        some ⟨bf.1, bf.2.width, bf.2.qty, quantize2 bf.2.entry_credit⟩
      else none
    closed_flies := (alKeys st.closed_flies).mergeSort
    total_pnl := quantize2 st.total_pnl }

/-- The `FileNotFoundError` branch of `load_state`: reset the in-memory
state to an empty default for today, persist it, and return the default
payload instead of raising.  The first component is the mutated state, the
second the persisted snapshot, the third the returned payload. -/
def load_state_missing (today : String) (st : StrategyState) :
    StrategyState × SavedState × SavedState :=
  let st' := { st with
    expiry := some today
    entered_today := false
    active_flies := []
    closed_flies := []
    total_pnl := 0 }
  (st', save_state st',
    { expiry := some today, entered_today := false, active_flies := []
      closed_flies := [], total_pnl := 0 })

/-- `rehydrate_from_state` applied to a loaded snapshot: when the snapshot
lists no active flies or its expiry is not today, reset `entered_today`
and stamp today; else restore each fly whose legs re-resolve from the
chain (`resolvable`), dropping the others.  `chain_has_expiry` abstracts
the expiry parse and chain-membership checks (both bail out leaving the
state untouched when they fail). -/
def rehydrate_from_state (today : String) (chain_has_expiry : Bool)
    (resolvable : ℚ → ℤ → Bool) (data : SavedState) (st : StrategyState) :
    StrategyState :=
  if !(!data.active_flies.isEmpty && data.expiry == some today) then
    { st with entered_today := false, expiry := some today }
  else if !chain_has_expiry then st
  else
    { st with
      active_flies :=
        (data.active_flies.filter fun s => resolvable s.body s.width).foldl
          (fun acc s =>
            alUpsert s.body ⟨s.body, s.width, s.qty, s.entry_credit, true⟩ acc)
          st.active_flies
      entered_today :=
        !(data.active_flies.filter fun s => resolvable s.body s.width).isEmpty
      expiry := data.expiry }

/-! ### Running P&L extrema

The `StrategyState` of `src/SPX_9IF_0DTE_v2.py` carries no extrema
fields; they belong to a later revision of the same file that is not in
the source tree (the serialization tests import it and assert on
`min_net_pnl` / `max_net_pnl`). -/

/-- Modelled from the spec: the missing later revision of
`SPX_9IF_0DTE_v2.py` (referenced by `test_state_serialization.py` and
`test_task_completion.py`) keeps running extrema of the aggregate P&L,
updated after each aggregate computation by
`min_total_pnl = min(min_total_pnl, aggregatePnL)` and
`max_total_pnl = max(max_total_pnl, aggregatePnL)`, both initialized to
zero at session start and never reset within a session. -/
def update_extrema (p : ℚ × ℚ) (obs : ℚ) : ℚ × ℚ :=
  (min p.1 obs, max p.2 obs)

/-- Modelled from the spec: the extrema pair after a session's sequence of
aggregate-P&L observations, starting from the zero defaults. -/
def extrema_after (observations : List ℚ) : ℚ × ℚ :=
  observations.foldl update_extrema (0, 0)

/-!
## Theorems for the claims
-/

theorem extrema_foldl_fst (p : ℚ × ℚ) (l : List ℚ) :
    (l.foldl update_extrema p).1 = l.foldl min p.1 := by
  induction l generalizing p with
  | nil => rfl
  | cons x xs ih => exact ih (update_extrema p x)

theorem extrema_foldl_snd (p : ℚ × ℚ) (l : List ℚ) :
    (l.foldl update_extrema p).2 = l.foldl max p.2 := by
  induction l generalizing p with
  | nil => rfl
  | cons x xs ih => exact ih (update_extrema p x)

/-- C3 counterexample: after the single aggregate-P&L observation `5`, the
running minimum is still the zero it was initialized with, while the true
minimum of the observations made so far is `5`; so the extrema do not
equal the true extrema of the observed sequence. -/
theorem claim3_extrema_cex :
    (extrema_after [(5 : ℚ)]).1 = 0 ∧ listMin [(5 : ℚ)] = some 5 ∧
      (0 : ℚ) ≠ 5 := by
  refine ⟨?_, rfl, by norm_num⟩
  show min 0 5 = 0
  norm_num

/-- C3 amended: each observation updates the extrema by
`min`/`max` with the aggregate P&L; across a session the running minimum
is non-increasing and the running maximum non-decreasing, they are never
reset (each step only widens them), and after any sequence of
observations they equal the true minimum and maximum of the observations
together with the session-start initial value `0`. -/
theorem claim3_extrema_amended (l : List ℚ) (o : ℚ) :
    extrema_after (l ++ [o]) = update_extrema (extrema_after l) o ∧
    (extrema_after (l ++ [o])).1 ≤ (extrema_after l).1 ∧
    (extrema_after l).2 ≤ (extrema_after (l ++ [o])).2 ∧
    (extrema_after l).1 ∈ (0 : ℚ) :: l ∧
    (extrema_after l).2 ∈ (0 : ℚ) :: l ∧
    (∀ x ∈ (0 : ℚ) :: l, (extrema_after l).1 ≤ x ∧ x ≤ (extrema_after l).2) := by
  have happ : extrema_after (l ++ [o]) = update_extrema (extrema_after l) o := by
    unfold extrema_after
    rw [List.foldl_append]
    rfl
  have h1 : (extrema_after l).1 = l.foldl min 0 := extrema_foldl_fst (0, 0) l
  have h2 : (extrema_after l).2 = l.foldl max 0 := extrema_foldl_snd (0, 0) l
  refine ⟨happ, ?_, ?_, ?_, ?_, ?_⟩
  · rw [happ]
    exact min_le_left _ _
  · rw [happ]
    exact le_max_left _ _
  · rw [h1]
    rcases foldl_min_mem 0 l with h | h
    · rw [h]
      exact List.mem_cons_self 0 l
    · exact List.mem_cons_of_mem 0 h
  · rw [h2]
    rcases foldl_max_mem 0 l with h | h
    · rw [h]
      exact List.mem_cons_self 0 l
    · exact List.mem_cons_of_mem 0 h
  · intro x hx
    rcases List.mem_cons.mp hx with rfl | hx'
    · exact ⟨h1 ▸ foldl_min_le_init 0 l, h2 ▸ foldl_max_init_le 0 l⟩
    · exact ⟨h1 ▸ foldl_min_le_mem 0 l x hx', h2 ▸ foldl_max_mem_le 0 l x hx'⟩

/-- C3 amended, instantiated at the observation sequence `[2, -3]`
followed by `4`; the extrema evaluate to `(-3, 2)` before and `(-3, 4)`
after the last observation. -/
theorem claim3_extrema_amended_witness :
    (extrema_after ([(2 : ℚ), -3] ++ [4]) =
        update_extrema (extrema_after [(2 : ℚ), -3]) 4 ∧
      (extrema_after ([(2 : ℚ), -3] ++ [4])).1 ≤ (extrema_after [(2 : ℚ), -3]).1 ∧
      (extrema_after [(2 : ℚ), -3]).2 ≤ (extrema_after ([(2 : ℚ), -3] ++ [4])).2 ∧
      (extrema_after [(2 : ℚ), -3]).1 ∈ (0 : ℚ) :: [(2 : ℚ), -3] ∧
      (extrema_after [(2 : ℚ), -3]).2 ∈ (0 : ℚ) :: [(2 : ℚ), -3] ∧
      (∀ x ∈ (0 : ℚ) :: [(2 : ℚ), -3],
        (extrema_after [(2 : ℚ), -3]).1 ≤ x ∧ x ≤ (extrema_after [(2 : ℚ), -3]).2)) ∧
    extrema_after [(2 : ℚ), -3, 4] = (-3, 4) := by
  refine ⟨claim3_extrema_amended [(2 : ℚ), -3] 4, ?_⟩
  show update_extrema (update_extrema (update_extrema (0, 0) 2) (-3)) 4 = (-3, 4)
  unfold update_extrema
  norm_num

theorem quantize2_zero : quantize2 0 = 0 := by
  unfold quantize2 rhalfEven
  norm_num

/-- C9 counterexample: on a missing snapshot, the synthesized default
returned by `load_state` carries the current date as its expiration, not
an unset expiration as the claim states. -/
theorem claim9_load_default_cex :
    (load_state_missing "2025-01-02" initialState).2.2.expiry =
        some "2025-01-02" ∧
      some "2025-01-02" ≠ (none : Option String) := by
  exact ⟨rfl, by simp⟩

/-- C9 amended: when no prior snapshot exists, `load_state` synthesizes an
empty default for the current session — expiration set to today's date,
`entered_today` false, no active positions, no closed bodies, total P&L
zero — persists exactly that default, and returns the persisted payload
instead of raising. -/
theorem claim9_load_default_amended (today : String) (st : StrategyState) :
    (load_state_missing today st).1.expiry = some today ∧
    (load_state_missing today st).1.entered_today = false ∧
    (load_state_missing today st).1.active_flies = [] ∧
    (load_state_missing today st).1.closed_flies = [] ∧
    (load_state_missing today st).1.total_pnl = 0 ∧
    (load_state_missing today st).2.1 = save_state (load_state_missing today st).1 ∧
    (load_state_missing today st).2.2 = (load_state_missing today st).2.1 := by
  refine ⟨rfl, rfl, rfl, rfl, rfl, rfl, ?_⟩
  show (SavedState.mk (some today) false [] [] 0) =
    save_state { st with expiry := some today, entered_today := false,
                         active_flies := [], closed_flies := [], total_pnl := 0 }
  unfold save_state
  simp [alKeys, quantize2_zero]

/-! ### C7: the ladder builder -/

theorem ladder_unsorted_nodup (atm step : ℚ) (b a : ℕ) (hstep : 0 < step) :
    ([atm] ++ (List.range b).map (fun i : ℕ => atm - ((i : ℚ) + 1) * step)
      ++ (List.range a).map (fun i : ℕ => atm + ((i : ℚ) + 1) * step)).Nodup := by
  have hinj_lo : Function.Injective (fun i : ℕ => atm - ((i : ℚ) + 1) * step) := by
    intro i j hij
    simp only at hij
    have : ((i : ℚ) + 1) * step = ((j : ℚ) + 1) * step := by linarith
    have h2 : ((i : ℚ) + 1) = ((j : ℚ) + 1) :=
      mul_right_cancel₀ (ne_of_gt hstep) this
    have h3 : (i : ℚ) = (j : ℚ) := by linarith
    exact_mod_cast h3
  have hinj_hi : Function.Injective (fun i : ℕ => atm + ((i : ℚ) + 1) * step) := by
    intro i j hij
    simp only at hij
    have : ((i : ℚ) + 1) * step = ((j : ℚ) + 1) * step := by linarith
    have h2 : ((i : ℚ) + 1) = ((j : ℚ) + 1) :=
      mul_right_cancel₀ (ne_of_gt hstep) this
    have h3 : (i : ℚ) = (j : ℚ) := by linarith
    exact_mod_cast h3
  have hlt_lo : ∀ i : ℕ, atm - ((i : ℚ) + 1) * step < atm := by
    intro i
    have hpos : 0 < ((i : ℚ) + 1) * step :=
      mul_pos (by positivity) hstep
    linarith
  have hlt_hi : ∀ i : ℕ, atm < atm + ((i : ℚ) + 1) * step := by
    intro i
    have hpos : 0 < ((i : ℚ) + 1) * step :=
      mul_pos (by positivity) hstep
    linarith
  rw [List.append_assoc, List.nodup_append]
  refine ⟨List.nodup_singleton atm, ?_, ?_⟩
  · rw [List.nodup_append]
    refine ⟨(List.nodup_range b).map hinj_lo, (List.nodup_range a).map hinj_hi, ?_⟩
    intro x hx hy
    rcases List.mem_map.mp hx with ⟨i, _, rfl⟩
    rcases List.mem_map.mp hy with ⟨j, _, hj⟩
    have h1 := hlt_lo i
    have h2 := hlt_hi j
    rw [hj] at h2
    linarith
  · intro x hx hy
    rcases List.mem_singleton.mp hx with rfl
    rcases List.mem_append.mp hy with h | h
    · rcases List.mem_map.mp h with ⟨i, _, hi⟩
      have := hlt_lo i
      rw [hi] at this
      exact absurd this (lt_irrefl x)
    · rcases List.mem_map.mp h with ⟨i, _, hi⟩
      have := hlt_hi i
      rw [hi] at this
      exact absurd this (lt_irrefl x)

/-- C7: for any anchor, positive step and counts `(b, a)`, the ladder
builder produces exactly `b + a + 1` body strikes, sorted ascending with
no duplicates, and the bodies are precisely the anchor together with
`anchor - i*step` for `i = 1..b` and `anchor + i*step` for `i = 1..a`. -/
theorem claim7_ladder_bodies (atm step : ℚ) (b a : ℕ) (hstep : 0 < step) :
    (ladder_bodies atm b a step).length = b + a + 1 ∧
    (ladder_bodies atm b a step).Sorted (· ≤ ·) ∧
    (ladder_bodies atm b a step).Nodup ∧
    (∀ x : ℚ, x ∈ ladder_bodies atm b a step ↔
      x = atm ∨ (∃ i : ℕ, 1 ≤ i ∧ i ≤ b ∧ x = atm - (i : ℚ) * step) ∨
      (∃ i : ℕ, 1 ≤ i ∧ i ≤ a ∧ x = atm + (i : ℚ) * step)) := by
  refine ⟨?_, ?_, ?_, ?_⟩
  · unfold ladder_bodies
    rw [List.length_mergeSort]
    simp
  · exact List.sorted_mergeSort' _
  · unfold ladder_bodies
    rw [(List.mergeSort_perm _ _).nodup_iff]
    exact ladder_unsorted_nodup atm step b a hstep
  · intro x
    unfold ladder_bodies
    rw [List.mem_mergeSort]
    simp only [List.mem_append, List.mem_singleton, List.mem_map, List.mem_range]
    constructor
    · rintro ((rfl | ⟨i, hi, rfl⟩) | ⟨i, hi, rfl⟩)
      · exact Or.inl rfl
      · refine Or.inr (Or.inl ⟨i + 1, by omega, by omega, ?_⟩)
        push_cast
        ring
      · refine Or.inr (Or.inr ⟨i + 1, by omega, by omega, ?_⟩)
        push_cast
        ring
    · rintro (rfl | ⟨i, h1, hb, rfl⟩ | ⟨i, h1, ha, rfl⟩)
      · exact Or.inl (Or.inl rfl)
      · refine Or.inl (Or.inr ⟨i - 1, by omega, ?_⟩)
        have hc : ((i - 1 : ℕ) : ℚ) + 1 = (i : ℚ) := by
          push_cast [Nat.cast_sub h1]
          ring
        rw [hc]
      · refine Or.inr ⟨i - 1, by omega, ?_⟩
        have hc : ((i - 1 : ℕ) : ℚ) + 1 = (i : ℚ) := by
          push_cast [Nat.cast_sub h1]
          ring
        rw [hc]

/-- C7 witness: the configuration of the spec's worked example — anchor
6400, step 5, four bodies on each side. -/
theorem claim7_ladder_bodies_witness :
    (0 : ℚ) < 5 ∧
    ((ladder_bodies 6400 4 4 5).length = 4 + 4 + 1 ∧
     (ladder_bodies 6400 4 4 5).Sorted (· ≤ ·) ∧
     (ladder_bodies 6400 4 4 5).Nodup ∧
     (∀ x : ℚ, x ∈ ladder_bodies 6400 4 4 5 ↔
       x = 6400 ∨ (∃ i : ℕ, 1 ≤ i ∧ i ≤ 4 ∧ x = 6400 - (i : ℚ) * 5) ∨
       (∃ i : ℕ, 1 ≤ i ∧ i ≤ 4 ∧ x = 6400 + (i : ℚ) * 5))) :=
  ⟨by norm_num, claim7_ladder_bodies 6400 5 4 4 (by norm_num)⟩

/-! ### C2: portfolio stop precedence -/

theorem alErase_sublist (k : ℚ) (l : List (ℚ × IronFly)) :
    (alErase k l).Sublist l := by
  induction l with
  | nil => exact List.Sublist.refl []
  | cons x xs ih =>
      rw [alErase]
      by_cases h : k = x.1
      · rw [if_pos h]
        exact List.sublist_cons_self x xs
      · rw [if_neg h]
        exact List.Sublist.cons₂ x ih

theorem close_all_portfolio_active (o : CycleOracle) (st : StrategyState)
    (l : List (ℚ × IronFly)) (h : st.active_flies = l) :
    (l.foldl
      (fun acc bf =>
        let fly' := if o.close_ok bf.1 then { bf.2 with is_open := false }
                    else bf.2
        { acc with
          closed_flies := alUpsert bf.1 fly' acc.closed_flies
          active_flies := alErase bf.1 acc.active_flies })
      st).active_flies = [] := by
  induction l generalizing st with
  | nil =>
      rw [List.foldl_nil]
      exact h
  | cons x xs ih =>
      rw [List.foldl_cons]
      refine ih _ ?_
      show alErase x.1 st.active_flies = xs
      rw [h, alErase, if_pos rfl]

theorem close_all_v2_active_sublist (o : CycleOracle)
    (l : List (ℚ × IronFly)) (st : StrategyState) :
    (l.foldl
      (fun acc bf =>
        if o.close_ok bf.1 then
          { acc with
            closed_flies := alUpsert bf.1 { bf.2 with is_open := false }
              acc.closed_flies
            active_flies := alErase bf.1 acc.active_flies }
        else acc)
      st).active_flies.Sublist st.active_flies := by
  induction l generalizing st with
  | nil => exact List.Sublist.refl _
  | cons x xs ih =>
      rw [List.foldl_cons]
      by_cases h : o.close_ok x.1
      · rw [if_pos h]
        exact (ih _).trans (alErase_sublist x.1 st.active_flies)
      · rw [if_neg h]
        exact ih st

/-- C2: when the portfolio stop condition holds in a cycle, the exit
evaluation marks every open position for closing, its result does not
depend on the per-position P&L map at all (per-position stop evaluation
is skipped), the `_not_used` engine's exit phase closes the whole book and
opens no replacement (no roll), and the v2 engine's exit phase opens no
position either (its surviving active list is a sublist of the former
one). -/
theorem claim2_portfolio_stop_precedence (cfg : Config) (o : CycleOracle)
    (st : StrategyState) (h : cfg.portfolio_stop ≤ -st.total_pnl) :
    (evaluate_exit_rules cfg st).1 = alKeys st.active_flies ∧
    (evaluate_exit_rules cfg st).2 = true ∧
    (∀ pnl', evaluate_exit_rules cfg { st with per_if_pnl := pnl' } =
      evaluate_exit_rules cfg st) ∧
    (run_exit_phase cfg o st).active_flies = [] ∧
    (run_exit_phase_v2 cfg o st).active_flies.Sublist st.active_flies := by
  have heval : evaluate_exit_rules cfg st = (alKeys st.active_flies, true) := by
    unfold evaluate_exit_rules
    rw [if_pos h]
  refine ⟨by rw [heval], by rw [heval], ?_, ?_, ?_⟩
  · intro pnl'
    unfold evaluate_exit_rules
    rw [if_pos h, if_pos h]
  · unfold run_exit_phase
    rw [heval]
    by_cases hA : st.active_flies.isEmpty
    · have hnil : st.active_flies = [] := by
        cases hl : st.active_flies with
        | nil => rfl
        | cons x xs => rw [hl] at hA; simp [List.isEmpty] at hA
      simp only [hA, Bool.and_false, Bool.not_true, if_neg]
      rw [show alKeys st.active_flies = [] by rw [hnil]; rfl]
      simp [hnil]
    · simp only [hA, Bool.not_false, Bool.and_true, if_pos]
      exact close_all_portfolio_active o st st.active_flies rfl
  · unfold run_exit_phase_v2
    rw [heval]
    by_cases hA : st.active_flies.isEmpty
    · have hnil : st.active_flies = [] := by
        cases hl : st.active_flies with
        | nil => rfl
        | cons x xs => rw [hl] at hA; simp [List.isEmpty] at hA
      simp only [hA, Bool.and_false, Bool.not_true, if_neg]
      rw [show alKeys st.active_flies = [] by rw [hnil]; rfl]
      simp [hnil]
    · simp only [hA, Bool.not_false, Bool.and_true, if_pos]
      exact close_all_v2_active_sublist o st.active_flies st

/-! Concrete fixtures used by the witnesses and counterexamples. -/

def flyAt (b : ℚ) (credit : ℚ) : IronFly := ⟨b, 60, 1, credit, true⟩

def oracleA : CycleOracle :=
  { time_ok := true
    atm := 6400
    legmids := fun _ => ⟨some 2, some 1, some 2, some 1⟩
    open_ok := fun _ => true
    open_credit := fun _ => 2
    close_ok := fun _ => true }

def stateA : StrategyState :=
  { entered_today := true
    expiry := some "2025-01-02"
    active_flies := [(6395, flyAt 6395 3), (6400, flyAt 6400 3),
      (6405, flyAt 6405 3)]
    closed_flies := []
    per_if_pnl := [(6395, -500), (6400, 10), (6405, 10)]
    total_pnl := -4000 }

/-- C2 witness: the default portfolio stop of 4000 is exactly reached by
`stateA`, whose aggregate P&L is -4000. -/
theorem claim2_portfolio_stop_precedence_witness :
    defaultConfig.portfolio_stop ≤ -stateA.total_pnl ∧
    ((evaluate_exit_rules defaultConfig stateA).1 = alKeys stateA.active_flies ∧
     (evaluate_exit_rules defaultConfig stateA).2 = true ∧
     (∀ pnl', evaluate_exit_rules defaultConfig { stateA with per_if_pnl := pnl' } =
       evaluate_exit_rules defaultConfig stateA) ∧
     (run_exit_phase defaultConfig oracleA stateA).active_flies = [] ∧
     (run_exit_phase_v2 defaultConfig oracleA stateA).active_flies.Sublist
       stateA.active_flies) :=
  ⟨by norm_num [defaultConfig, stateA],
    claim2_portfolio_stop_precedence defaultConfig oracleA stateA
      (by norm_num [defaultConfig, stateA])⟩

/-! ### C10: the session enters at most once -/

theorem per_if_close_one_v2_frame (o : CycleOracle) (st : StrategyState)
    (b : ℚ) :
    (per_if_close_one_v2 o st b).entered_today = st.entered_today ∧
    (per_if_close_one_v2 o st b).active_flies.Sublist st.active_flies := by
  unfold per_if_close_one_v2
  split
  · exact ⟨rfl, List.Sublist.refl _⟩
  · split
    · split
      · exact ⟨rfl, alErase_sublist _ _⟩
      · exact ⟨rfl, List.Sublist.refl _⟩
    · exact ⟨rfl, List.Sublist.refl _⟩

theorem foldl_per_if_v2_frame (o : CycleOracle) (bodies : List ℚ)
    (st : StrategyState) :
    (bodies.foldl (per_if_close_one_v2 o) st).entered_today = st.entered_today ∧
    (bodies.foldl (per_if_close_one_v2 o) st).active_flies.Sublist
      st.active_flies := by
  induction bodies generalizing st with
  | nil => exact ⟨rfl, List.Sublist.refl _⟩
  | cons b bs ih =>
      rw [List.foldl_cons]
      obtain ⟨h1, h2⟩ := ih (per_if_close_one_v2 o st b)
      obtain ⟨g1, g2⟩ := per_if_close_one_v2_frame o st b
      exact ⟨h1.trans g1, h2.trans g2⟩

theorem close_all_v2_entered (o : CycleOracle) (l : List (ℚ × IronFly))
    (st : StrategyState) :
    (l.foldl
      (fun acc bf =>
        if o.close_ok bf.1 then
          { acc with
            closed_flies := alUpsert bf.1 { bf.2 with is_open := false }
              acc.closed_flies
            active_flies := alErase bf.1 acc.active_flies }
        else acc)
      st).entered_today = st.entered_today := by
  induction l generalizing st with
  | nil => rfl
  | cons x xs ih =>
      rw [List.foldl_cons]
      by_cases h : o.close_ok x.1
      · rw [if_pos h]
        exact ih _
      · rw [if_neg h]
        exact ih st

theorem run_exit_phase_v2_entered (cfg : Config) (o : CycleOracle)
    (st : StrategyState) :
    (run_exit_phase_v2 cfg o st).entered_today = st.entered_today := by
  simp only [run_exit_phase_v2]
  split
  · exact close_all_v2_entered o st.active_flies st
  · split
    · exact (foldl_per_if_v2_frame o _ st).1
    · rfl

theorem run_exit_phase_v2_sublist (cfg : Config) (o : CycleOracle)
    (st : StrategyState) :
    (run_exit_phase_v2 cfg o st).active_flies.Sublist st.active_flies := by
  simp only [run_exit_phase_v2]
  split
  · exact close_all_v2_active_sublist o st.active_flies st
  · split
    · exact (foldl_per_if_v2_frame o _ st).2
    · exact List.Sublist.refl _

theorem run_exit_phase_v2_frame (cfg : Config) (o : CycleOracle)
    (st : StrategyState) :
    (run_exit_phase_v2 cfg o st).entered_today = st.entered_today ∧
    (run_exit_phase_v2 cfg o st).active_flies.Sublist st.active_flies :=
  ⟨run_exit_phase_v2_entered cfg o st, run_exit_phase_v2_sublist cfg o st⟩

theorem run_entry_v2_of_entered (cfg : Config) (o : CycleOracle)
    (st : StrategyState) (h : st.entered_today = true) :
    run_entry_v2 cfg o st = st := by
  unfold run_entry_v2
  rw [h]
  simp

theorem run_mark_frame (o : CycleOracle) (st : StrategyState) :
    (run_mark o st).entered_today = st.entered_today ∧
    (run_mark o st).active_flies = st.active_flies := by
  unfold run_mark
  split
  · exact ⟨rfl, rfl⟩
  · exact ⟨rfl, rfl⟩

theorem per_if_v2_foldl_of_no_active (o : CycleOracle) (bodies : List ℚ)
    (st : StrategyState) (h : st.active_flies = []) :
    bodies.foldl (per_if_close_one_v2 o) st = st := by
  induction bodies with
  | nil => rfl
  | cons b bs ih =>
      rw [List.foldl_cons]
      have hstep : per_if_close_one_v2 o st b = st := by
        unfold per_if_close_one_v2
        rw [h]
        rfl
      rw [hstep]
      exact ih

/-- C10: once `entered_today` is true, a v2 `run` cycle keeps it true, the
entry branch stays disabled so no new position is ever opened (the active
list after the cycle is a sublist of the one before), and if the book is
flat the whole cycle leaves the state untouched — the book stays flat for
the rest of the session. -/
theorem claim10_entered_monotone (cfg : Config) (o : CycleOracle)
    (st : StrategyState) (h : st.entered_today = true) :
    (run_cycle_v2 cfg o st).entered_today = true ∧
    (run_cycle_v2 cfg o st).active_flies.Sublist st.active_flies ∧
    (st.active_flies = [] → run_cycle_v2 cfg o st = st) := by
  unfold run_cycle_v2
  rw [run_entry_v2_of_entered cfg o st h]
  obtain ⟨hm1, hm2⟩ := run_mark_frame o st
  obtain ⟨he1, he2⟩ := run_exit_phase_v2_frame cfg o (run_mark o st)
  refine ⟨by rw [he1, hm1, h], (hm2 ▸ he2 : _), ?_⟩
  intro hflat
  have hmark : run_mark o st = st := by
    unfold run_mark
    rw [hflat]
    rfl
  rw [hmark]
  simp only [run_exit_phase_v2]
  split
  · next hcond =>
      rw [hflat] at hcond
      simp [List.isEmpty] at hcond
  · split
    · exact per_if_v2_foldl_of_no_active o _ st hflat
    · rfl

/-- C10 witness: a flat entered state; the cycle leaves it untouched. -/
theorem claim10_entered_monotone_witness :
    ({ initialState with entered_today := true } : StrategyState).entered_today
        = true ∧
    ((run_cycle_v2 defaultConfig oracleA
        { initialState with entered_today := true }).entered_today = true ∧
      (run_cycle_v2 defaultConfig oracleA
        { initialState with entered_today := true }).active_flies.Sublist
        ({ initialState with entered_today := true } : StrategyState).active_flies ∧
      (({ initialState with entered_today := true } : StrategyState).active_flies = [] →
        run_cycle_v2 defaultConfig oracleA { initialState with entered_today := true } =
          { initialState with entered_today := true })) :=
  ⟨rfl, claim10_entered_monotone defaultConfig oracleA
    { initialState with entered_today := true } rfl⟩

/-! ### C4: handling of positions with missing mids -/

theorem alLookup_cons (b : ℚ) (x : ℚ × α) (xs : List (ℚ × α)) :
    alLookup b (x :: xs) = if b = x.1 then some x.2 else alLookup b xs := rfl

theorem alMapFilter_lookup_notMem (g : ℚ → α → Option β) (l : List (ℚ × α))
    (b : ℚ) (h : b ∉ alKeys l) : alLookup b (alMapFilter g l) = none := by
  induction l with
  | nil => rfl
  | cons x xs ih =>
      have hb : b ≠ x.1 ∧ b ∉ alKeys xs := by
        rw [alKeys, List.map_cons] at h
        exact ⟨fun he => h (he ▸ List.mem_cons_self _ _),
          fun hm => h (List.mem_cons_of_mem _ hm)⟩
      rw [alMapFilter, List.filterMap_cons]
      cases hg : g x.1 x.2 with
      | none =>
          simp only [Option.map_none']
          exact ih hb.2
      | some v =>
          simp only [Option.map_some']
          rw [alLookup_cons, if_neg hb.1]
          exact ih hb.2

theorem alMapFilter_lookup (g : ℚ → α → Option β) (l : List (ℚ × α))
    (hnd : (alKeys l).Nodup) (b : ℚ) :
    alLookup b (alMapFilter g l) =
      (match alLookup b l with
       | some v => g b v
       | none => none) := by
  induction l with
  | nil => rfl
  | cons x xs ih =>
      have hnd' : (alKeys xs).Nodup := (List.nodup_cons.mp hnd).2
      have hx1 : x.1 ∉ alKeys xs := (List.nodup_cons.mp hnd).1
      rw [alMapFilter, List.filterMap_cons, alLookup_cons]
      cases hg : g x.1 x.2 with
      | none =>
          simp only [Option.map_none']
          by_cases hb : b = x.1
          · rw [if_pos hb]
            show alLookup b (alMapFilter g xs) = g b x.2
            rw [hb, hg]
            exact alMapFilter_lookup_notMem g xs x.1 hx1
          · rw [if_neg hb]
            exact ih hnd'
      | some v =>
          simp only [Option.map_some']
          rw [alLookup_cons]
          by_cases hb : b = x.1
          · rw [if_pos hb, if_pos hb]
            show some v = g b x.2
            rw [hb, hg]
          · rw [if_neg hb, if_neg hb]
            exact ih hnd'

def stateB : StrategyState :=
  { entered_today := true
    expiry := some "2025-01-02"
    active_flies := [(6400, flyAt 6400 3)]
    closed_flies := []
    per_if_pnl := [(6400, -2)]
    total_pnl := -2 }

/-- C4 counterexample: `stateB` holds an open position at body 6400 whose
recorded P&L is -2; when its mids are missing for a cycle,
`compute_strategy_status` rebuilds the per-position P&L map without it, so
the previously recorded value is deleted rather than retained. -/
theorem claim4_retention_cex :
    stateB.per_if_pnl = [(6400, -2)] ∧
    (alLookup 6400 stateB.active_flies).isSome = true ∧
    (compute_strategy_status stateB (fun _ => none)).per_if_pnl = [] ∧
    alLookup 6400 (compute_strategy_status stateB (fun _ => none)).per_if_pnl
      = none := by
  exact ⟨rfl, rfl, rfl, rfl⟩

/-- C4 amended: the mark-to-market pass rebuilds the per-position P&L map
from scratch each cycle: an open position gets a fresh P&L exactly when
its mid is present this cycle, and a position whose mids are missing is
skipped — it gets no entry at all, so its previously recorded value is
dropped from the map rather than retained. -/
theorem claim4_skip_amended (st : StrategyState) (mids : ℚ → Option ℚ)
    (hnd : (alKeys st.active_flies).Nodup) :
    (∀ b : ℚ, alLookup b (compute_strategy_status st mids).per_if_pnl =
      (match alLookup b st.active_flies with
       | some fly =>
           if fly.is_open then
             (mids b).map fun m => round2 (fly.entry_credit - m)
           else none
       | none => none)) ∧
    (∀ b fly, alLookup b st.active_flies = some fly → fly.is_open = true →
      mids b = none →
      alLookup b (compute_strategy_status st mids).per_if_pnl = none) := by
  have hmain : ∀ b : ℚ, alLookup b (compute_strategy_status st mids).per_if_pnl =
      (match alLookup b st.active_flies with
       | some fly =>
           if fly.is_open then
             (mids b).map fun m => round2 (fly.entry_credit - m)
           else none
       | none => none) := by
    intro b
    show alLookup b (compute_per_if_pnl st.active_flies mids) = _
    rw [compute_per_if_pnl, alMapFilter_lookup _ _ hnd b]
    cases alLookup b st.active_flies with
    | none => rfl
    | some fly => rfl
  refine ⟨hmain, ?_⟩
  intro b fly hlook hopen hmid
  rw [hmain b, hlook]
  dsimp only
  rw [hopen, hmid]
  rfl

/-- C4 amended, instantiated at `stateB` with all mids missing. -/
theorem claim4_skip_amended_witness :
    (alKeys stateB.active_flies).Nodup ∧
    ((∀ b : ℚ, alLookup b
        (compute_strategy_status stateB (fun _ => none)).per_if_pnl =
      (match alLookup b stateB.active_flies with
       | some fly =>
           if fly.is_open then
             ((fun _ : ℚ => (none : Option ℚ)) b).map fun m =>
               round2 (fly.entry_credit - m)
           else none
       | none => none)) ∧
    (∀ b fly, alLookup b stateB.active_flies = some fly → fly.is_open = true →
      (fun _ : ℚ => (none : Option ℚ)) b = none →
      alLookup b (compute_strategy_status stateB (fun _ => none)).per_if_pnl
        = none)) :=
  ⟨by simp [stateB, alKeys], claim4_skip_amended stateB (fun _ => none)
    (by simp [stateB, alKeys])⟩

/-! ### C6: the P&L formula -/

theorem isNickel_add {a b : ℚ} (ha : isNickel a) (hb : isNickel b) :
    isNickel (a + b) := by
  obtain ⟨y, hy⟩ := (den_one_iff _).mp ha
  obtain ⟨z, hz⟩ := (den_one_iff _).mp hb
  unfold isNickel
  have : (a + b) * 20 = ((y + z : ℤ) : ℚ) := by push_cast; linarith [hy, hz]
  rw [this]
  exact Rat.den_intCast _

theorem isNickel_sub {a b : ℚ} (ha : isNickel a) (hb : isNickel b) :
    isNickel (a - b) := by
  obtain ⟨y, hy⟩ := (den_one_iff _).mp ha
  obtain ⟨z, hz⟩ := (den_one_iff _).mp hb
  unfold isNickel
  have : (a - b) * 20 = ((y - z : ℤ) : ℚ) := by push_cast; linarith [hy, hz]
  rw [this]
  exact Rat.den_intCast _

theorem alLookup_of_mem {l : List (ℚ × α)} (hnd : (alKeys l).Nodup)
    {bf : ℚ × α} (h : bf ∈ l) : alLookup bf.1 l = some bf.2 := by
  induction l with
  | nil => cases h
  | cons x xs ih =>
      rcases List.mem_cons.mp h with rfl | h'
      · rw [alLookup_cons, if_pos rfl]
      · have hx1 : x.1 ∉ alKeys xs := (List.nodup_cons.mp hnd).1
        have hne : bf.1 ≠ x.1 := by
          intro he
          exact hx1 (he ▸ List.mem_map_of_mem Prod.fst h')
        rw [alLookup_cons, if_neg hne]
        exact ih (List.nodup_cons.mp hnd).2 h'

theorem alMapFilter_eq_map (g : ℚ → α → Option β) (f : ℚ × α → β)
    (l : List (ℚ × α)) (h : ∀ bf ∈ l, g bf.1 bf.2 = some (f bf)) :
    alMapFilter g l = l.map fun bf => (bf.1, f bf) := by
  induction l with
  | nil => rfl
  | cons x xs ih =>
      rw [alMapFilter, List.filterMap_cons, h x (List.mem_cons_self x xs)]
      simp only [Option.map_some']
      rw [List.map_cons]
      exact congrArg _ (ih fun bf hbf => h bf (List.mem_cons_of_mem x hbf))

/-- The leg-mid assignment in which every leg of every body has a mid. -/
def allSome (cs cl ps pl : ℚ → ℚ) : ℚ → LegMids :=
  fun b => ⟨some (cs b), some (cl b), some (ps b), some (pl b)⟩

theorem fly_mid_credit_allSome (cs cl ps pl : ℚ → ℚ) (b : ℚ)
    (hn : isNickel (cs b) ∧ isNickel (cl b) ∧ isNickel (ps b) ∧
      isNickel (pl b)) :
    fly_mid_credit (allSome cs cl ps pl b) =
      some ((cs b + ps b) - (cl b + pl b)) := by
  show some (round_to_nickel ((cs b + ps b) - (cl b + pl b))) = _
  rw [round_to_nickel_of_isNickel
    (isNickel_sub (isNickel_add hn.1 hn.2.2.1) (isNickel_add hn.2.1 hn.2.2.2))]

/-- C6: when all four leg mids of every open position are present this
cycle (each a nickel multiple, as the quote aggregator always produces),
the mark-to-market pass records for each position the P&L
`entryCredit - ((shortCallMid + shortPutMid) - (longCallMid + longPutMid))`
rounded to the cent, and the aggregate P&L is the sum of exactly those
per-position P&Ls over all open positions, rounded to the cent. -/
theorem claim6_pnl_formula (st : StrategyState) (cs cl ps pl : ℚ → ℚ)
    (hnd : (alKeys st.active_flies).Nodup)
    (hopen : ∀ bf ∈ st.active_flies, bf.2.is_open = true)
    (hnick : ∀ b : ℚ, isNickel (cs b) ∧ isNickel (cl b) ∧ isNickel (ps b) ∧
      isNickel (pl b)) :
    (∀ bf ∈ st.active_flies,
      alLookup bf.1 (mark_to_market (allSome cs cl ps pl) st).per_if_pnl =
        some (round2 (bf.2.entry_credit -
          ((cs bf.1 + ps bf.1) - (cl bf.1 + pl bf.1))))) ∧
    (mark_to_market (allSome cs cl ps pl) st).total_pnl =
      round2 ((st.active_flies.map fun bf =>
        round2 (bf.2.entry_credit -
          ((cs bf.1 + ps bf.1) - (cl bf.1 + pl bf.1)))).sum) := by
  have hmids : ∀ bf ∈ st.active_flies,
      alLookup bf.1 (stream_fly_mids (allSome cs cl ps pl) st.active_flies) =
        some ((cs bf.1 + ps bf.1) - (cl bf.1 + pl bf.1)) := by
    intro bf hbf
    rw [stream_fly_mids, alMapFilter_lookup _ _ hnd bf.1,
      alLookup_of_mem hnd hbf]
    exact fly_mid_credit_allSome cs cl ps pl bf.1 (hnick bf.1)
  have hperentry : ∀ bf ∈ st.active_flies,
      (if bf.2.is_open then
        (alLookup bf.1 (stream_fly_mids (allSome cs cl ps pl) st.active_flies)).map
          (fun m => round2 (bf.2.entry_credit - m))
       else none) =
        some (round2 (bf.2.entry_credit -
          ((cs bf.1 + ps bf.1) - (cl bf.1 + pl bf.1)))) := by
    intro bf hbf
    rw [hopen bf hbf, if_pos rfl, hmids bf hbf]
    rfl
  have hper : compute_per_if_pnl st.active_flies
      (fun b => alLookup b (stream_fly_mids (allSome cs cl ps pl) st.active_flies)) =
      st.active_flies.map fun bf =>
        (bf.1, round2 (bf.2.entry_credit -
          ((cs bf.1 + ps bf.1) - (cl bf.1 + pl bf.1)))) := by
    rw [compute_per_if_pnl]
    exact alMapFilter_eq_map _ _ _ hperentry
  constructor
  · intro bf hbf
    have h1 : (mark_to_market (allSome cs cl ps pl) st).per_if_pnl =
        compute_per_if_pnl st.active_flies
          (fun b => alLookup b
            (stream_fly_mids (allSome cs cl ps pl) st.active_flies)) := rfl
    rw [h1, compute_per_if_pnl, alMapFilter_lookup _ _ hnd bf.1,
      alLookup_of_mem hnd hbf]
    exact hperentry bf hbf
  · have h2 : (mark_to_market (allSome cs cl ps pl) st).total_pnl =
        compute_total (compute_per_if_pnl st.active_flies
          (fun b => alLookup b
            (stream_fly_mids (allSome cs cl ps pl) st.active_flies))) := rfl
    rw [h2, hper, compute_total, List.map_map]
    rfl

/-! Fixture mid assignments for the C6 witness: every short call mid is 8,
every long call mid 1, every short put mid 4, every long put mid 2, so the
mid credit of each fly is 9 and each fly of `stateA` (entry credit 3) has
P&L -6. -/

def midCS : ℚ → ℚ := fun _ => 8

def midCL : ℚ → ℚ := fun _ => 1

def midPS : ℚ → ℚ := fun _ => 4

def midPL : ℚ → ℚ := fun _ => 2

/-- C6 witness: the three open flies of `stateA` with complete nickel
mids. -/
theorem claim6_pnl_formula_witness :
    ((alKeys stateA.active_flies).Nodup ∧
     (∀ bf ∈ stateA.active_flies, bf.2.is_open = true) ∧
     (∀ b : ℚ, isNickel (midCS b) ∧ isNickel (midCL b) ∧ isNickel (midPS b) ∧
       isNickel (midPL b))) ∧
    ((∀ bf ∈ stateA.active_flies,
      alLookup bf.1
        (mark_to_market (allSome midCS midCL midPS midPL) stateA).per_if_pnl =
        some (round2 (bf.2.entry_credit -
          ((midCS bf.1 + midPS bf.1) - (midCL bf.1 + midPL bf.1))))) ∧
     (mark_to_market (allSome midCS midCL midPS midPL) stateA).total_pnl =
      round2 ((stateA.active_flies.map fun bf =>
        round2 (bf.2.entry_credit -
          ((midCS bf.1 + midPS bf.1) - (midCL bf.1 + midPL bf.1)))).sum)) := by
  have hnd : (alKeys stateA.active_flies).Nodup := by
    norm_num [stateA, alKeys]
  have hopen : ∀ bf ∈ stateA.active_flies, bf.2.is_open = true := by
    intro bf hbf
    simp only [stateA, List.mem_cons, List.not_mem_nil, or_false] at hbf
    rcases hbf with rfl | rfl | rfl <;> rfl
  have hnick : ∀ b : ℚ, isNickel (midCS b) ∧ isNickel (midCL b) ∧
      isNickel (midPS b) ∧ isNickel (midPL b) := by
    intro b
    refine ⟨?_, ?_, ?_, ?_⟩
    · show (midCS b * 20).den = 1
      norm_num [midCS]
    · show (midCL b * 20).den = 1
      norm_num [midCL]
    · show (midPS b * 20).den = 1
      norm_num [midPS]
    · show (midPL b * 20).den = 1
      norm_num [midPL]
  exact ⟨⟨hnd, hopen, hnick⟩,
    claim6_pnl_formula stateA midCS midCL midPS midPL hnd hopen hnick⟩

/-! ### C5: serialize/rehydrate round trip -/

theorem filterMap_all_some (f : α → Option β) (g : α → β) (l : List α)
    (h : ∀ x ∈ l, f x = some (g x)) : l.filterMap f = l.map g := by
  induction l with
  | nil => rfl
  | cons x xs ih =>
      rw [List.filterMap_cons, h x (List.mem_cons_self x xs), List.map_cons]
      exact congrArg _ (ih fun y hy => h y (List.mem_cons_of_mem x hy))

theorem alUpsert_notMem (k : ℚ) (v : α) (l : List (ℚ × α))
    (h : k ∉ alKeys l) : alUpsert k v l = l ++ [(k, v)] := by
  induction l with
  | nil => rfl
  | cons x xs ih =>
      have hb : k ≠ x.1 ∧ k ∉ alKeys xs := by
        rw [alKeys, List.map_cons] at h
        exact ⟨fun he => h (he ▸ List.mem_cons_self _ _),
          fun hm => h (List.mem_cons_of_mem _ hm)⟩
      show (if k = x.1 then (k, v) :: xs else x :: alUpsert k v xs) = _
      rw [if_neg hb.1, ih hb.2]
      rfl

/-- The fly rebuilt by `rehydrate_from_state` from one serialized entry. -/
def rebuiltFly (s : SavedFly) : ℚ × IronFly :=
  (s.body, ⟨s.body, s.width, s.qty, s.entry_credit, true⟩)

theorem foldl_upsert_fresh (l : List SavedFly) (acc : List (ℚ × IronFly))
    (hnd : (l.map SavedFly.body).Nodup)
    (hdis : ∀ s ∈ l, s.body ∉ alKeys acc) :
    l.foldl (fun acc s =>
        alUpsert s.body ⟨s.body, s.width, s.qty, s.entry_credit, true⟩ acc)
      acc = acc ++ l.map rebuiltFly := by
  induction l generalizing acc with
  | nil => simp
  | cons s ss ih =>
      rw [List.foldl_cons,
        alUpsert_notMem s.body _ acc (hdis s (List.mem_cons_self s ss))]
      have hnd' : (ss.map SavedFly.body).Nodup := (List.nodup_cons.mp hnd).2
      have hs1 : s.body ∉ ss.map SavedFly.body := (List.nodup_cons.mp hnd).1
      have hdis' : ∀ t ∈ ss, t.body ∉ alKeys (acc ++ [(s.body,
          (⟨s.body, s.width, s.qty, s.entry_credit, true⟩ : IronFly))]) := by
        intro t ht
        rw [alKeys, List.map_append]
        intro hmem
        rcases List.mem_append.mp hmem with h1 | h1
        · exact hdis t (List.mem_cons_of_mem s ht) h1
        · have h2 : t.body = s.body := by simpa using h1
          exact hs1 (h2 ▸ List.mem_map_of_mem SavedFly.body ht)
      rw [ih _ hnd' hdis', List.map_cons, List.append_assoc]
      rfl

/-- The four serialized per-position fields (keyed by body). -/
def flyFields (bf : ℚ × IronFly) : ℚ × ℚ × ℤ × ℤ × ℚ :=
  (bf.1, bf.2.body, bf.2.width, bf.2.qty, bf.2.entry_credit)

/-- C5: for a ladder state the engine can produce — unique bodies, every
active fly open and keyed by its own body, entry credits whole cents (the
engine's credits are nickel-rounded) — with the snapshot's expiration
matching today and every body re-resolvable from the chain, rehydrating a
saved snapshot restores an active set with identical bodies, widths,
quantities and entry credits. -/
theorem claim5_roundtrip (today : String) (st : StrategyState)
    (resolvable : ℚ → ℤ → Bool)
    (hnd : (alKeys st.active_flies).Nodup)
    (hexp : st.expiry = some today)
    (hopen : ∀ bf ∈ st.active_flies, bf.2.is_open = true)
    (hbody : ∀ bf ∈ st.active_flies, bf.2.body = bf.1)
    (hcent : ∀ bf ∈ st.active_flies, isCent bf.2.entry_credit)
    (hres : ∀ bf ∈ st.active_flies, resolvable bf.1 bf.2.width = true) :
    (rehydrate_from_state today true resolvable (save_state st)
        initialState).active_flies.map flyFields =
      st.active_flies.map flyFields := by
  have hsaved : (save_state st).active_flies = st.active_flies.map
      fun bf => SavedFly.mk bf.1 bf.2.width bf.2.qty bf.2.entry_credit := by
    show st.active_flies.filterMap _ = _
    refine filterMap_all_some _ _ _ ?_
    intro bf hbf
    rw [hopen bf hbf, if_pos rfl, quantize2_of_isCent (hcent bf hbf)]
  cases hA : st.active_flies with
  | nil =>
      have h1 : (save_state st).active_flies = [] := by rw [hsaved, hA]; rfl
      rw [rehydrate_from_state, h1]
      simp [hA, initialState]
  | cons bf0 bfs =>
      have hne : (save_state st).active_flies.isEmpty = false := by
        rw [hsaved, hA]
        rfl
      have hentered : (!(save_state st).active_flies.isEmpty &&
          ((save_state st).expiry == some today)) = true := by
        rw [hne]
        show (true && ((save_state st).expiry == some today)) = true
        rw [Bool.true_and]
        show (st.expiry == some today) = true
        rw [hexp]
        exact beq_self_eq_true (some today)
      have hfilter : (save_state st).active_flies.filter
          (fun s => resolvable s.body s.width) = (save_state st).active_flies := by
        rw [List.filter_eq_self]
        intro s hs
        rw [hsaved] at hs
        rcases List.mem_map.mp hs with ⟨bf, hbf, rfl⟩
        exact hres bf hbf
      rw [rehydrate_from_state, hentered, Bool.not_true,
        if_neg Bool.false_ne_true, if_neg Bool.false_ne_true, hfilter]
      dsimp only
      rw [hsaved]
      have hnd2 : ((st.active_flies.map
          fun bf => SavedFly.mk bf.1 bf.2.width bf.2.qty bf.2.entry_credit).map
            SavedFly.body).Nodup := by
        rw [List.map_map]
        exact hnd
      rw [foldl_upsert_fresh _ _ hnd2 (by intro s hs; simp [initialState, alKeys])]
      show ((st.active_flies.map _).map rebuiltFly).map flyFields = _
      rw [List.map_map, List.map_map, ← hA]
      refine List.map_congr_left ?_
      intro bf hbf
      show (bf.1, bf.1, bf.2.width, bf.2.qty, bf.2.entry_credit) = flyFields bf
      rw [flyFields, hbody bf hbf]

/-- C5 witness: the three-fly ladder `stateA`, saved and rehydrated with a
fully resolving chain for its own expiration date. -/
theorem claim5_roundtrip_witness :
    ((alKeys stateA.active_flies).Nodup ∧
     stateA.expiry = some "2025-01-02" ∧
     (∀ bf ∈ stateA.active_flies, bf.2.is_open = true) ∧
     (∀ bf ∈ stateA.active_flies, bf.2.body = bf.1) ∧
     (∀ bf ∈ stateA.active_flies, isCent bf.2.entry_credit) ∧
     (∀ bf ∈ stateA.active_flies,
       (fun _ _ => true : ℚ → ℤ → Bool) bf.1 bf.2.width = true)) ∧
    (rehydrate_from_state "2025-01-02" true (fun _ _ => true)
        (save_state stateA) initialState).active_flies.map flyFields =
      stateA.active_flies.map flyFields := by
  have hnd : (alKeys stateA.active_flies).Nodup := by
    norm_num [stateA, alKeys]
  have hopen : ∀ bf ∈ stateA.active_flies, bf.2.is_open = true := by
    intro bf hbf
    simp only [stateA, List.mem_cons, List.not_mem_nil, or_false] at hbf
    rcases hbf with rfl | rfl | rfl <;> rfl
  have hbody : ∀ bf ∈ stateA.active_flies, bf.2.body = bf.1 := by
    intro bf hbf
    simp only [stateA, List.mem_cons, List.not_mem_nil, or_false] at hbf
    rcases hbf with rfl | rfl | rfl <;> rfl
  have hcent : ∀ bf ∈ stateA.active_flies, isCent bf.2.entry_credit := by
    intro bf hbf
    simp only [stateA, List.mem_cons, List.not_mem_nil, or_false] at hbf
    rcases hbf with rfl | rfl | rfl
    · show ((flyAt 6395 3).entry_credit * 100).den = 1
      norm_num [flyAt]
    · show ((flyAt 6400 3).entry_credit * 100).den = 1
      norm_num [flyAt]
    · show ((flyAt 6405 3).entry_credit * 100).den = 1
      norm_num [flyAt]
  have hres : ∀ bf ∈ stateA.active_flies,
      (fun _ _ => true : ℚ → ℤ → Bool) bf.1 bf.2.width = true :=
    fun _ _ => rfl
  exact ⟨⟨hnd, rfl, hopen, hbody, hcent, hres⟩,
    claim5_roundtrip "2025-01-02" stateA (fun _ _ => true) hnd rfl hopen hbody
      hcent hres⟩

/-! ### The roll target (`roll_replacement` of the `_not_used` engine) -/

theorem roll_target_shape {step : ℚ} {bodies : List ℚ} {hit t : ℚ}
    (h : roll_target step bodies hit = some t) :
    ∃ lo hi, listMin bodies = some lo ∧ listMax bodies = some hi ∧
      (t = hi + step ∨ t = lo - step) := by
  unfold roll_target at h
  cases hlo : listMin bodies with
  | none =>
      rw [hlo] at h
      cases hhi : listMax bodies with
      | none => rw [hhi] at h; cases h
      | some hi => rw [hhi] at h; cases h
  | some lo =>
      rw [hlo] at h
      cases hhi : listMax bodies with
      | none => rw [hhi] at h; cases h
      | some hi =>
          rw [hhi] at h
          refine ⟨lo, hi, rfl, rfl, ?_⟩
          dsimp only at h
          by_cases h1 : hit = lo
          · rw [if_pos h1] at h
            injection h with h'
            exact Or.inl h'.symm
          · rw [if_neg h1] at h
            by_cases h2 : hit = hi
            · rw [if_pos h2] at h
              injection h with h'
              exact Or.inr h'.symm
            · rw [if_neg h2] at h
              by_cases h3 : |hit - lo| < |hit - hi|
              · rw [if_pos h3] at h
                injection h with h'
                exact Or.inl h'.symm
              · rw [if_neg h3] at h
                injection h with h'
                exact Or.inr h'.symm

theorem roll_target_not_mem {step : ℚ} {bodies : List ℚ} {hit t : ℚ}
    (hstep : 0 < step) (h : roll_target step bodies hit = some t) :
    t ∉ bodies := by
  obtain ⟨lo, hi, hlo, hhi, hcase⟩ := roll_target_shape h
  intro hmem
  rcases hcase with rfl | rfl
  · have h1 : hi + step ≤ hi := listMax_le hhi _ hmem
    linarith
  · have h1 : lo ≤ lo - step := listMin_le hlo _ hmem
    linarith

/-- The exact replacement-body rule of `roll_replacement` when the body
list is nonempty: the first two branches compare against the minimum and
maximum, the third the distances. -/
theorem roll_target_eq {step : ℚ} {bodies : List ℚ} {hit lo hi : ℚ}
    (hlo : listMin bodies = some lo) (hhi : listMax bodies = some hi) :
    roll_target step bodies hit =
      some (if hit = lo then hi + step
            else if hit = hi then lo - step
            else if |hit - lo| < |hit - hi| then hi + step
            else lo - step) := by
  unfold roll_target
  rw [hlo, hhi]
  dsimp only
  split_ifs <;> rfl

theorem alErase_length {k : ℚ} {l : List (ℚ × α)} {v : α}
    (h : alLookup k l = some v) : (alErase k l).length + 1 = l.length := by
  induction l with
  | nil => cases h
  | cons x xs ih =>
      rw [alLookup_cons] at h
      by_cases hk : k = x.1
      · rw [alErase, if_pos hk]
        rfl
      · rw [if_neg hk] at h
        rw [alErase, if_neg hk, List.length_cons, List.length_cons, ih h]

theorem alErase_keys_notMem {k : ℚ} {l : List (ℚ × α)}
    (hnd : (alKeys l).Nodup) : k ∉ alKeys (alErase k l) := by
  induction l with
  | nil => simp [alErase, alKeys]
  | cons x xs ih =>
      rw [alErase]
      by_cases hk : k = x.1
      · rw [if_pos hk]
        exact hk ▸ (List.nodup_cons.mp hnd).1
      · rw [if_neg hk]
        intro hmem
        rcases List.mem_cons.mp hmem with h1 | h1
        · exact hk h1
        · exact ih (List.nodup_cons.mp hnd).2 h1

/-! ### C8: closed bodies and re-entry -/

/-- A fly of `stateC` that was already closed earlier in the session. -/
def fly110c : IronFly := ⟨110, 60, 1, 3, false⟩

/-- A mid-session ladder: 110 was stopped out and rolled to 95 in an
earlier cycle, and now 95 itself has hit its per-position stop. -/
def stateC : StrategyState :=
  { entered_today := true
    expiry := some "2025-01-02"
    active_flies := [(100, flyAt 100 3), (105, flyAt 105 3), (95, flyAt 95 2)]
    closed_flies := [(110, fly110c)]
    per_if_pnl := [(95, -500), (100, 1), (105, 1)]
    total_pnl := -498 }

/-- C8 counterexample: in `stateC` the session's closed set contains body
110; the cycle closes 95 (per-position stop, portfolio stop not hit) and
rolls to `highest + step = 110`, reopening the closed body — afterwards
110 is both an open-position body and a closed body, so the claimed
disjointness is violated. -/
theorem claim8_closed_reopened_cex :
    (110 : ℚ) ∈ alKeys stateC.closed_flies ∧
    alKeys (run_exit_phase defaultConfig oracleA stateC).active_flies =
      [100, 105, 110] ∧
    (110 : ℚ) ∈ alKeys (run_exit_phase defaultConfig oracleA stateC).active_flies ∧
    (110 : ℚ) ∈ alKeys (run_exit_phase defaultConfig oracleA stateC).closed_flies := by
  have hrun : alKeys (run_exit_phase defaultConfig oracleA stateC).active_flies =
      [100, 105, 110] ∧
      alKeys (run_exit_phase defaultConfig oracleA stateC).closed_flies =
      [110, 95] := by
    norm_num [run_exit_phase, evaluate_exit_rules, per_if_close_one,
      roll_replacement, roll_target, close_all_portfolio, listMin, listMax,
      min_def, max_def, alLookup, alErase, alUpsert, alKeys, stateC, flyAt,
      fly110c, defaultConfig, oracleA]
  refine ⟨?_, hrun.1, ?_, ?_⟩
  · norm_num [stateC, alKeys]
  · rw [hrun.1]
    norm_num
  · rw [hrun.2]
    norm_num

/-- C8 amended: the closed-bodies set does not prevent re-entry — a roll
target may coincide with a previously closed body (see the
counterexample).  What the roll does guarantee is freshness among the
open positions: with a positive step, the replacement body is strictly
beyond an extremity of the remaining ladder, so it is never a body that
is currently open. -/
theorem claim8_roll_fresh_amended (step : ℚ) (bodies : List ℚ) (hit t : ℚ)
    (hstep : 0 < step) (h : roll_target step bodies hit = some t) :
    t ∉ bodies :=
  roll_target_not_mem hstep h

/-- C8 amended witness: rolling 95 out of the remaining ladder
`[100, 105]` targets 110, which is not currently open. -/
theorem claim8_roll_fresh_amended_witness :
    (0 : ℚ) < 5 ∧ roll_target 5 [100, 105] 95 = some 110 ∧
      (110 : ℚ) ∉ [(100 : ℚ), 105] := by
  have h : roll_target 5 [100, 105] 95 = some 110 := by
    norm_num [roll_target, listMin, listMax, min_def, max_def]
  exact ⟨by norm_num, h,
    claim8_roll_fresh_amended 5 [100, 105] 95 110 (by norm_num) h⟩

/-! ### C1: the roll on a per-position stop -/

/-- A ladder with an interior gap (produced by earlier rolls): bodies 95,
100, 105, 120 are open and the middle rung 105 has hit its stop. -/
def stateD : StrategyState :=
  { entered_today := true
    expiry := some "2025-01-02"
    active_flies := [(95, flyAt 95 3), (100, flyAt 100 3),
      (105, flyAt 105 3), (120, flyAt 120 3)]
    closed_flies := []
    per_if_pnl := [(95, 1), (100, 1), (105, -500), (120, 1)]
    total_pnl := -497 }

/-- C1 counterexample: body 105 is neither the lowest (95) nor the highest
(120) open body, and the lower extremity is the numerically closer one
(|105-95| = 10 < 15 = |105-120|), so the claim requires the replacement at
95 - 5 = 90; the engine instead opens 120 + 5 = 125 — one step beyond the
farther extremity. -/
theorem claim1_middle_roll_cex :
    |(105 : ℚ) - 95| < |(105 : ℚ) - 120| ∧
    alKeys (run_exit_phase defaultConfig oracleA stateD).active_flies =
      [95, 100, 120, 125] ∧
    (90 : ℚ) ∉ alKeys (run_exit_phase defaultConfig oracleA stateD).active_flies := by
  have hrun : alKeys (run_exit_phase defaultConfig oracleA stateD).active_flies =
      [95, 100, 120, 125] := by
    norm_num [run_exit_phase, evaluate_exit_rules, per_if_close_one,
      roll_replacement, roll_target, close_all_portfolio, listMin, listMax,
      min_def, max_def, alLookup, alErase, alUpsert, alKeys, stateD, flyAt,
      defaultConfig, oracleA]
  refine ⟨by norm_num, hrun, ?_⟩
  rw [hrun]
  norm_num

theorem roll_replacement_spec (cfg : Config) (o : CycleOracle)
    (st : StrategyState) (hit nbval : ℚ)
    (htr : roll_target cfg.step (alKeys st.active_flies) hit = some nbval)
    (hok : o.open_ok nbval = true)
    (hnm : nbval ∉ alKeys st.active_flies) :
    roll_replacement cfg o st hit =
      { st with active_flies := st.active_flies ++
          [(nbval, ⟨nbval, cfg.width, 1, o.open_credit nbval, true⟩)] } := by
  unfold roll_replacement
  rw [htr]
  simp [hok, alUpsert_notMem _ _ _ hnm]

/-- C1 amended: in the `_not_used` engine (the v2 engine closes without
rolling), consider a cycle whose portfolio stop does not fire and in which
exactly one body `b` hits its per-position stop, with at least two open
bodies remaining after the close (`lo < hi` their extremes) and the
replacement order succeeding.  Then exactly one replacement is appended
and the number of open positions is unchanged; if the closed body lay
below the remaining ladder the new body is `hi + step`, if above it is
`lo - step`, and if strictly inside, the roll goes one step beyond the
extremity numerically *farther* from the closed body (ties to the low
side) — not the closer one as the claim stated. -/
theorem claim1_roll_amended (cfg : Config) (o : CycleOracle)
    (st : StrategyState) (b lo hi : ℚ) (fly : IronFly)
    (hstep : 0 < cfg.step)
    (hnd : (alKeys st.active_flies).Nodup)
    (hnop : ¬ cfg.portfolio_stop ≤ -st.total_pnl)
    (hto : (st.per_if_pnl.filter fun p => cfg.per_if_stop ≤ -p.2).map Prod.fst
      = [b])
    (hlook : alLookup b st.active_flies = some fly)
    (hfopen : fly.is_open = true)
    (hclose : o.close_ok b = true)
    (hlo : listMin (alKeys (alErase b st.active_flies)) = some lo)
    (hhi : listMax (alKeys (alErase b st.active_flies)) = some hi)
    (hlohi : lo < hi)
    (hopen_all : ∀ x, o.open_ok x = true) :
    ∃ nb,
      alKeys (run_exit_phase cfg o st).active_flies =
        alKeys (alErase b st.active_flies) ++ [nb] ∧
      (run_exit_phase cfg o st).active_flies.length =
        st.active_flies.length ∧
      (b < lo → nb = hi + cfg.step) ∧
      (hi < b → nb = lo - cfg.step) ∧
      (lo < b → b < hi →
        ((|b - lo| < |b - hi| → nb = hi + cfg.step) ∧
         (¬ |b - lo| < |b - hi| → nb = lo - cfg.step))) := by
  have heval : evaluate_exit_rules cfg st = ([b], false) := by
    unfold evaluate_exit_rules
    rw [if_neg hnop, hto]
  have hexit : run_exit_phase cfg o st = per_if_close_one cfg o st b := by
    simp [run_exit_phase, heval]
  have hone : per_if_close_one cfg o st b = roll_replacement cfg o
      { st with
        closed_flies := alUpsert b { fly with is_open := false } st.closed_flies
        active_flies := alErase b st.active_flies } b := by
    simp [per_if_close_one, hlook, hfopen, hclose]
  set nbval : ℚ :=
    if b = lo then hi + cfg.step
    else if b = hi then lo - cfg.step
    else if |b - lo| < |b - hi| then hi + cfg.step
    else lo - cfg.step with hnb
  have htr : roll_target cfg.step (alKeys (alErase b st.active_flies)) b =
      some nbval := roll_target_eq hlo hhi
  have hnm : nbval ∉ alKeys (alErase b st.active_flies) :=
    roll_target_not_mem hstep htr
  have hroll := roll_replacement_spec cfg o
    { st with
      closed_flies := alUpsert b { fly with is_open := false } st.closed_flies
      active_flies := alErase b st.active_flies } b nbval htr (hopen_all nbval)
    hnm
  have hfinal : (run_exit_phase cfg o st).active_flies =
      alErase b st.active_flies ++
        [(nbval, ⟨nbval, cfg.width, 1, o.open_credit nbval, true⟩)] := by
    rw [hexit, hone, hroll]
  have hbne_lo : b ≠ lo := by
    intro he
    exact alErase_keys_notMem hnd (he ▸ listMin_mem hlo)
  have hbne_hi : b ≠ hi := by
    intro he
    exact alErase_keys_notMem hnd (he ▸ listMax_mem hhi)
  refine ⟨nbval, ?_, ?_, ?_, ?_, ?_⟩
  · rw [hfinal, alKeys, List.map_append]
    rfl
  · rw [hfinal, List.length_append]
    have := alErase_length hlook
    simp only [List.length_singleton]
    omega
  · intro hb
    rw [hnb, if_neg hbne_lo, if_neg hbne_hi, if_pos]
    have h1 : |b - lo| = lo - b := by
      rw [abs_of_neg (by linarith)]
      ring
    have h2 : |b - hi| = hi - b := by
      rw [abs_of_neg (by linarith)]
      ring
    rw [h1, h2]
    linarith
  · intro hb
    rw [hnb, if_neg hbne_lo, if_neg hbne_hi, if_neg]
    have h1 : |b - lo| = b - lo := by
      rw [abs_of_pos (by linarith)]
    have h2 : |b - hi| = b - hi := by
      rw [abs_of_pos (by linarith)]
    rw [h1, h2]
    linarith
  · intro _ _
    constructor
    · intro habs
      rw [hnb, if_neg hbne_lo, if_neg hbne_hi, if_pos habs]
    · intro habs
      rw [hnb, if_neg hbne_lo, if_neg hbne_hi, if_neg habs]

/-- C1 amended witness: the cycle of `stateD` (middle rung 105 stopped,
remaining ladder 95..120) rolls to 125 and keeps four open positions. -/
theorem claim1_roll_amended_witness :
    ((0 : ℚ) < defaultConfig.step ∧
     (alKeys stateD.active_flies).Nodup ∧
     ¬ defaultConfig.portfolio_stop ≤ -stateD.total_pnl ∧
     (stateD.per_if_pnl.filter
       fun p => defaultConfig.per_if_stop ≤ -p.2).map Prod.fst = [105] ∧
     alLookup 105 stateD.active_flies = some (flyAt 105 3) ∧
     (flyAt 105 3).is_open = true ∧
     oracleA.close_ok 105 = true ∧
     listMin (alKeys (alErase 105 stateD.active_flies)) = some 95 ∧
     listMax (alKeys (alErase 105 stateD.active_flies)) = some 120 ∧
     (95 : ℚ) < 120) ∧
    (∃ nb,
      alKeys (run_exit_phase defaultConfig oracleA stateD).active_flies =
        alKeys (alErase 105 stateD.active_flies) ++ [nb] ∧
      (run_exit_phase defaultConfig oracleA stateD).active_flies.length =
        stateD.active_flies.length ∧
      ((105 : ℚ) < 95 → nb = 120 + defaultConfig.step) ∧
      ((120 : ℚ) < 105 → nb = 95 - defaultConfig.step) ∧
      ((95 : ℚ) < 105 → (105 : ℚ) < 120 →
        ((|(105 : ℚ) - 95| < |(105 : ℚ) - 120| →
            nb = 120 + defaultConfig.step) ∧
         (¬ |(105 : ℚ) - 95| < |(105 : ℚ) - 120| →
            nb = 95 - defaultConfig.step)))) := by
  have h1 : (0 : ℚ) < defaultConfig.step := by norm_num [defaultConfig]
  have h2 : (alKeys stateD.active_flies).Nodup := by
    norm_num [stateD, alKeys]
  have h3 : ¬ defaultConfig.portfolio_stop ≤ -stateD.total_pnl := by
    norm_num [defaultConfig, stateD]
  have h4 : (stateD.per_if_pnl.filter
      fun p => defaultConfig.per_if_stop ≤ -p.2).map Prod.fst = [105] := by
    norm_num [stateD, defaultConfig]
  have h5 : alLookup 105 stateD.active_flies = some (flyAt 105 3) := by
    norm_num [stateD, alLookup]
  have h8 : listMin (alKeys (alErase 105 stateD.active_flies)) = some 95 := by
    norm_num [stateD, alKeys, alErase, listMin, min_def]
  have h9 : listMax (alKeys (alErase 105 stateD.active_flies)) = some 120 := by
    norm_num [stateD, alKeys, alErase, listMax, max_def]
  exact ⟨⟨h1, h2, h3, h4, h5, rfl, rfl, h8, h9, by norm_num⟩,
    claim1_roll_amended defaultConfig oracleA stateD 105 95 120 (flyAt 105 3)
      h1 h2 h3 h4 h5 rfl rfl h8 h9 (by norm_num) (fun _ => rfl)⟩

end SpxBot
